import Mathlib

/-!
Verification of the bootstrap control plane of an NCCL-style collective
communication library (source: src/bootstrap.cc).

The C code is shallowly embedded: machine ints become Nat or Int, socket
addresses become natural numbers (0 standing for the all-zero address),
fallible operations return Except or Option, and the side effects of a call
(socket operations, frees) are reified as explicit event or resource lists.
Ring collectives are modelled by their synchronous round semantics: at each
step every rank receives from its ring predecessor exactly the slice that
the predecessor sent at that step, which is how the blocking send/recv pairs
on the ring sockets behave.
-/

namespace NcclBootstrap

/-- Result codes returned by the bootstrap functions, mirroring ncclResult_t. -/
inductive ncclResult where
  | ncclSuccess
  | ncclInvalidArgument
  | ncclSystemError
  | ncclInternalError
deriving DecidableEq, Repr

open ncclResult

/-- Model of bootstrapNetRecv. The socket delivers a 4-byte length prefix
`recvSize` followed by a byte stream; the caller expects at most `size` bytes.
The function rejects `recvSize > size` as truncation without reading any
payload byte, and otherwise reads `min recvSize size` bytes of the stream.
The returned list is the sequence of payload bytes actually read. -/
def bootstrapNetRecv (size recvSize : Int) (stream : List Nat) :
    ncclResult × List Nat :=
  if recvSize > size then (ncclInternalError, [])
  else (ncclSuccess, stream.take (min recvSize size).toNat)

/-- An entry of the unexpectedConnections list: a parked accepted connection
identified by the sender rank, the tag, and a socket identifier. -/
structure unexConn where
  peer : Int
  tag : Int
  sock : Nat
deriving DecidableEq, Repr

/-- The per-communicator bootstrap state fields that the teardown paths
inspect: the unexpected-connection queue and the dereferenced abort flag. -/
structure bootstrapState where
  rank : Nat
  nranks : Nat
  unexpectedConnections : List unexConn
  abortFlag : Nat
deriving DecidableEq, Repr

/-- Resources owned by a bootstrapState that Close and Abort may release. -/
inductive bResource where
  | listenSock
  | ringSendSocket
  | ringRecvSocket
  | peerCommAddresses
  | peerProxyAddresses
  | unexQueue
  | stateMem
deriving DecidableEq, Repr

/-- Effects of a teardown call: its result code, the sockets it closed and the
allocations it freed, in program order. -/
structure closeResult where
  result : ncclResult
  closed : List bResource
  freed : List bResource
deriving DecidableEq, Repr

/-- Model of bootstrapClose. If the unexpected queue is nonempty the queue
nodes are freed; if moreover the abort flag is clear this is an internal
error and nothing else happens. Otherwise the three persistent sockets are
closed and peerCommAddresses and the state struct are freed. -/
def bootstrapClose (state : bootstrapState) : closeResult :=
  if state.unexpectedConnections ≠ [] ∧ state.abortFlag = 0 then
    { result := ncclInternalError, closed := [], freed := [bResource.unexQueue] }
  else
    { result := ncclSuccess,
      closed := [bResource.listenSock, bResource.ringSendSocket, bResource.ringRecvSocket],
      freed := (if state.unexpectedConnections ≠ [] then [bResource.unexQueue] else [])
                 ++ [bResource.peerCommAddresses, bResource.stateMem] }

/-- Model of unexpectedEnqueue: a freshly allocated node is appended at the
tail of the singly linked unexpectedConnections list (the code walks to the
last node and hangs the new one there). -/
def unexpectedEnqueue : List unexConn → unexConn → List unexConn
  | [], u => [u]
  | e :: rest, u => e :: unexpectedEnqueue rest u

/-- Model of unexpectedDequeue: scan the list front to back for the first
entry whose peer and tag both match; unlink and return it together with the
remaining list. none models found = 0. -/
def unexpectedDequeue (q : List unexConn) (peer tag : Int) :
    Option (unexConn × List unexConn) :=
  match q with
  | [] => none
  | e :: rest =>
      if e.peer = peer ∧ e.tag = tag then some (e, rest)
      else
        match unexpectedDequeue rest peer tag with
        | some (f, q') => some (f, e :: q')
        | none => none

/-- Model of the accept loop of bootstrapRecv: connections arrive in the
order of the incoming list; a non-matching one is parked at the tail of the
queue, a matching one is read. Returns the socket carrying the payload, the
final queue and the connections not yet accepted; none models blocking
forever because no matching connection ever arrives. -/
def bootstrapRecvLoop (peer tag : Int) :
    List unexConn → List unexConn → Option (Nat × List unexConn × List unexConn)
  | _, [] => none
  | q, c :: rest =>
      if c.peer = peer ∧ c.tag = tag then some (c.sock, q, rest)
      else bootstrapRecvLoop peer tag (unexpectedEnqueue q c) rest

/-- Model of bootstrapRecv: first search the unexpected queue; on a hit the
payload is read from the parked socket and the incoming stream is untouched.
Otherwise accept new connections until one matches. -/
def bootstrapRecv (q : List unexConn) (peer tag : Int) (incoming : List unexConn) :
    Option (Nat × List unexConn × List unexConn) :=
  match unexpectedDequeue q peer tag with
  | some (e, q') => some (e.sock, q', incoming)
  | none => bootstrapRecvLoop peer tag q incoming

/-- Whether an unexpected-queue entry matches a Recv for (peer, tag). -/
def unexMatch (peer tag : Int) (e : unexConn) : Prop :=
  e.peer = peer ∧ e.tag = tag

instance (peer tag : Int) (e : unexConn) : Decidable (unexMatch peer tag e) :=
  inferInstanceAs (Decidable (_ ∧ _))

/-- Model of bootstrapAbort. A NULL commState is modelled as none: the call
returns success and touches nothing. Otherwise it closes the three sockets
and frees both address tables and the state struct. -/
def bootstrapAbort (commState : Option bootstrapState) :
    ncclResult × List bResource × List bResource :=
  match commState with
  | none => (ncclSuccess, [], [])
  | some _ =>
      (ncclSuccess,
       [bResource.listenSock, bResource.ringSendSocket, bResource.ringRecvSocket],
       [bResource.peerCommAddresses, bResource.peerProxyAddresses, bResource.stateMem])

variable {α : Type*}

/-- The rendezvous payload each rank sends to the root (struct extInfo).
Addresses are abstracted to naturals, 0 standing for all-zero bytes. -/
structure extInfo where
  rank : Nat
  nranks : Nat
  extAddressListenRoot : Nat
  extAddressListen : Nat
deriving DecidableEq, Repr

/-- State of the root service during Phase A: the number of check-ins
accepted so far, the rank count captured on the first one, and the two
address tables (zero-initialised on allocation). -/
structure rootState where
  c : Nat
  nranks : Nat
  rankAddresses : Nat → Nat
  rankAddressesRoot : Nat → Nat

/-- One accepted check-in of the root collect loop. On the first check-in
the rank count is captured and both tables are allocated zeroed. A rank
count mismatch or an already-nonzero slot aborts the service: the error
carries the state exactly as it was, nothing is stored. Otherwise both
addresses are stored at index info.rank and the counter advances. -/
def rootStep (s : rootState) (info : extInfo) : Except rootState rootState :=
  let s' := if s.c = 0 then
      { s with nranks := info.nranks,
               rankAddresses := fun _ => 0,
               rankAddressesRoot := fun _ => 0 }
    else s
  if s'.nranks ≠ info.nranks then .error s'
  else if s'.rankAddressesRoot info.rank ≠ 0 then .error s'
  else .ok
    { s' with
      rankAddressesRoot := fun r =>
        if r = info.rank then info.extAddressListenRoot else s'.rankAddressesRoot r,
      rankAddresses := fun r =>
        if r = info.rank then info.extAddressListen else s'.rankAddresses r,
      c := s'.c + 1 }

/-- One message of the distribute phase: the root connects to dest, sends
payload over that fresh connection and closes it. -/
structure distSend where
  dest : Nat
  payload : Nat
deriving DecidableEq, Repr

/-- The distribute loop of the root service from loop index r upward: for
each r it sends the comm-address of rank (r+1) mod nranks to the
root-callback address of rank r. -/
def rootDistributeFrom (nranks : Nat) (rankAddresses rankAddressesRoot : Nat → Nat)
    (r : Nat) : List distSend :=
  if h : r < nranks then
    ⟨rankAddressesRoot r, rankAddresses ((r + 1) % nranks)⟩ ::
      rootDistributeFrom nranks rankAddresses rankAddressesRoot (r + 1)
  else []
termination_by nranks - r

/-- Phase B of the root service: the whole distribute loop, from r = 0. -/
def rootDistribute (nranks : Nat) (rankAddresses rankAddressesRoot : Nat → Nat) :
    List distSend :=
  rootDistributeFrom nranks rankAddresses rankAddressesRoot 0

/-- Socket operations a collective performs, as observable events: a tagged
point-to-point send or receive (bootstrapSend / bootstrapRecv to a peer
identifier taken from the ranks array), or a transfer on one of the two
persistent ring sockets. -/
inductive bEvent where
  | p2pSend (peer tag : Int)
  | p2pRecv (peer tag : Int)
  | ringSend
  | ringRecv
deriving DecidableEq, Repr

/-- The dissemination loop of bootstrapBarrier: while mask < nranks, send to
ranks[(rank + mask) mod nranks] and then receive from
ranks[(rank - mask + nranks) mod nranks], both under the given tag, and
double the mask. -/
def bootstrapBarrierGo (ranks : Nat → Int) (rank nranks : Nat) (tag : Int)
    (mask : Nat) (hm : 0 < mask) : List bEvent :=
  if h : mask < nranks then
    bEvent.p2pSend (ranks ((rank + mask) % nranks)) tag ::
    bEvent.p2pRecv (ranks ((rank + nranks - mask) % nranks)) tag ::
    bootstrapBarrierGo ranks rank nranks tag (2 * mask) (by omega)
  else []
termination_by nranks - mask

/-- Model of bootstrapBarrier: its result code and the sequence of socket
operations it performs. nranks = 1 returns immediately with no traffic. -/
def bootstrapBarrier (ranks : Nat → Int) (rank nranks : Nat) (tag : Int) :
    ncclResult × List bEvent :=
  if nranks = 1 then (ncclSuccess, [])
  else (ncclSuccess, bootstrapBarrierGo ranks rank nranks tag 1 Nat.one_pos)

/-- Number of iterations the dissemination loop performs from a given mask. -/
def barrierIters (nranks mask : Nat) (hm : 0 < mask) : Nat :=
  if h : mask < nranks then barrierIters nranks (2 * mask) (by omega) + 1 else 0
termination_by nranks - mask

/-- The pair of events of one dissemination round at a given mask: a send to
ranks[(rank + mask) mod nranks] followed by a receive from
ranks[(rank - mask + nranks) mod nranks], under the given tag. -/
def barrierRound (ranks : Nat → Int) (rank nranks : Nat) (tag : Int) (mask : Nat) :
    List bEvent :=
  [bEvent.p2pSend (ranks ((rank + mask) % nranks)) tag,
   bEvent.p2pRecv (ranks ((rank + nranks - mask) % nranks)) tag]

/-- Ring predecessor of a rank. -/
def prevRank (nranks rank : Nat) : Nat := (rank + nranks - 1) % nranks

/-- Slice index sent at step i of the ring AllGather, (rank - i + nranks)
mod nranks in the source (written without Nat underflow for i ≤ nranks). -/
def sslice (nranks rank i : Nat) : Nat := (rank + nranks - i) % nranks

/-- Slice index received at step i of the ring AllGather,
(rank - i - 1 + nranks) mod nranks in the source. -/
def rslice (nranks rank i : Nat) : Nat := (rank + nranks - (i + 1)) % nranks

/-- One synchronous round of the ring AllGather over the whole group:
data r s is the content of slice s in the buffer of rank r. At step i every
rank r overwrites its slice rslice with what its ring predecessor sends at
that step, namely the predecessor's slice sslice(prev, i); all other slices
are untouched. -/
def allGatherStep (nranks i : Nat) (data : Nat → Nat → α) : Nat → Nat → α :=
  fun r s =>
    if s = rslice nranks r i then
      data (prevRank nranks r) (sslice nranks (prevRank nranks r) i)
    else data r s

/-- The first k rounds of the ring AllGather. -/
def allGatherRun (nranks : Nat) (data : Nat → Nat → α) : Nat → (Nat → Nat → α)
  | 0 => data
  | k + 1 => allGatherStep nranks k (allGatherRun nranks data k)

/-- Model of bootstrapAllGather running to completion on every rank of the
ring: the loop body executes for i = 0 .. nranks-2, hence nranks-1 rounds. -/
def bootstrapAllGather (nranks : Nat) (data : Nat → Nat → α) : Nat → Nat → α :=
  allGatherRun nranks data (nranks - 1)

/-- The loop of bootstrapIntraNodeAllGather from iteration i: send the own
slice to ranks[(rank + i) mod nranks] under tag i, then receive slice
(rank - i + nranks) mod nranks from that rank under tag i. The value each
receive deposits is supplied by the environment oracle env, indexed by the
iteration. -/
def bootstrapIntraNodeAllGatherGo (ranks : Nat → Int) (rank nranks : Nat)
    (env : Nat → α) (i : Nat) (data : Nat → α) : List bEvent × (Nat → α) :=
  if h : i < nranks then
    let src := (rank + nranks - i) % nranks
    let dst := (rank + i) % nranks
    let data' := fun s => if s = src then env i else data s
    let rest := bootstrapIntraNodeAllGatherGo ranks rank nranks env (i + 1) data'
    (bEvent.p2pSend (ranks dst) (i : Int) :: bEvent.p2pRecv (ranks src) (i : Int) :: rest.1,
     rest.2)
  else ([], data)
termination_by nranks - i

/-- Model of bootstrapIntraNodeAllGather: result code, event trace and the
final content of the local data buffer. nranks = 1 returns immediately. -/
def bootstrapIntraNodeAllGather (ranks : Nat → Int) (rank nranks : Nat)
    (data : Nat → α) (env : Nat → α) : ncclResult × List bEvent × (Nat → α) :=
  if nranks = 1 then (ncclSuccess, [], data)
  else
    let r := bootstrapIntraNodeAllGatherGo ranks rank nranks env 1 data
    (ncclSuccess, r.1, r.2)

/-- The send fan-out of the broadcast root: for i = 0 .. nranks-1, every
non-root i is sent the buffer under tag ranks[i]. -/
def broadcastSends (ranks : Nat → Int) (root nranks : Nat) : List bEvent :=
  (List.range nranks).filterMap fun i =>
    if i ≠ root then some (bEvent.p2pSend (ranks i) (ranks i)) else none

/-- Model of bootstrapIntraNodeBroadcast: the root sends the buffer to every
other rank; a non-root receives one message under tag ranks[rank], its
buffer becoming the received value env. nranks = 1 returns immediately. -/
def bootstrapIntraNodeBroadcast (ranks : Nat → Int) (rank nranks root : Nat)
    (bcastData : α) (env : α) : ncclResult × List bEvent × α :=
  if nranks = 1 then (ncclSuccess, [], bcastData)
  else if rank = root then
    (ncclSuccess, broadcastSends ranks root nranks, bcastData)
  else (ncclSuccess, [bEvent.p2pRecv (ranks root) (ranks rank)], env)

/-! Theorems. -/

/-- C5: bootstrapNetRecv rejects a length prefix larger than the expected
size as an InternalError without reading any payload byte; otherwise it
succeeds and reads exactly min(recvSize, size) bytes into the destination
(the stream supplies at least that many bytes on a healthy socket). -/
theorem bootstrapNetRecv_truncation (size recvSize : Int) (stream : List Nat) :
    (recvSize > size →
      bootstrapNetRecv size recvSize stream = (ncclResult.ncclInternalError, [])) ∧
    (¬ recvSize > size →
      (bootstrapNetRecv size recvSize stream).1 = ncclResult.ncclSuccess ∧
      (bootstrapNetRecv size recvSize stream).2 = stream.take (min recvSize size).toNat ∧
      ((min recvSize size).toNat ≤ stream.length →
        (bootstrapNetRecv size recvSize stream).2.length = (min recvSize size).toNat)) := by
  constructor
  · intro h
    simp [bootstrapNetRecv, h]
  · intro h
    have he : bootstrapNetRecv size recvSize stream =
        (ncclResult.ncclSuccess, stream.take (min recvSize size).toNat) := by
      simp [bootstrapNetRecv, h]
    rw [he]
    refine ⟨rfl, rfl, fun hl => ?_⟩
    simpa [List.length_take] using hl

/-- Witness for C5: a frame announcing 7 bytes where only 4 were expected is
rejected as truncation. -/
theorem bootstrapNetRecv_truncation_witness :
    bootstrapNetRecv 4 7 [1, 2, 3] = (ncclResult.ncclInternalError, []) :=
  (bootstrapNetRecv_truncation 4 7 [1, 2, 3]).1 (by decide)

/-- C8 counterexample: with an empty unexpected queue and a clear abort flag,
bootstrapClose succeeds but does not free peerProxyAddresses, refuting the
claim that the non-error path frees the address tables (plural): only
peerCommAddresses and the state struct are freed. -/
theorem bootstrapClose_counterexample :
    (bootstrapClose ⟨0, 2, [], 0⟩).result = ncclResult.ncclSuccess ∧
    bResource.peerProxyAddresses ∉ (bootstrapClose ⟨0, 2, [], 0⟩).freed := by
  decide

/-- C8 (amended): bootstrapClose returns InternalError exactly when the
unexpected queue is nonempty while the abort flag is clear; when it does not
error it closes listenSock, ringSendSocket and ringRecvSocket and frees the
peerCommAddresses table and the state struct, but not peerProxyAddresses. -/
theorem bootstrapClose_spec (state : bootstrapState) :
    ((bootstrapClose state).result = ncclResult.ncclInternalError ↔
      (state.unexpectedConnections ≠ [] ∧ state.abortFlag = 0)) ∧
    ((state.unexpectedConnections = [] ∨ state.abortFlag ≠ 0) →
      (bootstrapClose state).closed =
        [bResource.listenSock, bResource.ringSendSocket, bResource.ringRecvSocket] ∧
      bResource.peerCommAddresses ∈ (bootstrapClose state).freed ∧
      bResource.stateMem ∈ (bootstrapClose state).freed ∧
      bResource.peerProxyAddresses ∉ (bootstrapClose state).freed) := by
  by_cases hcond : state.unexpectedConnections ≠ [] ∧ state.abortFlag = 0
  · constructor
    · simp [bootstrapClose, hcond]
    · intro hd
      exfalso
      rcases hd with h | h
      · exact hcond.1 h
      · exact h hcond.2
  · constructor
    · simp only [bootstrapClose, if_neg hcond]
      constructor
      · intro h
        exact absurd h (by simp)
      · intro h
        exact absurd h hcond
    · intro hd
      by_cases hq : state.unexpectedConnections = []
      · simp [bootstrapClose, hcond, hq]
      · have hflag : state.abortFlag ≠ 0 := by
          rcases hd with h | h
          · exact absurd h hq
          · exact h
        simp [bootstrapClose, hcond, hq, hflag]

/-- Witness for C8: at a concrete state with a clear flag and empty queue the
non-error clause of the amended theorem holds. -/
theorem bootstrapClose_spec_witness :
    (bootstrapClose ⟨0, 2, [], 0⟩).closed =
      [bResource.listenSock, bResource.ringSendSocket, bResource.ringRecvSocket] ∧
    bResource.peerCommAddresses ∈ (bootstrapClose ⟨0, 2, [], 0⟩).freed ∧
    bResource.stateMem ∈ (bootstrapClose ⟨0, 2, [], 0⟩).freed ∧
    bResource.peerProxyAddresses ∉ (bootstrapClose ⟨0, 2, [], 0⟩).freed :=
  (bootstrapClose_spec ⟨0, 2, [], 0⟩).2 (Or.inl rfl)

/-- C9: with a single rank, bootstrapBarrier, bootstrapIntraNodeAllGather and
bootstrapIntraNodeBroadcast return Success at once, perform no send and no
receive, and leave the data buffer untouched. -/
theorem singleRank_shortCircuit {α : Type*} (ranks : Nat → Int) (rank root : Nat)
    (tag : Int) (data : Nat → α) (env : Nat → α) (bcastData envB : α) :
    bootstrapBarrier ranks rank 1 tag = (ncclResult.ncclSuccess, []) ∧
    bootstrapIntraNodeAllGather ranks rank 1 data env = (ncclResult.ncclSuccess, [], data) ∧
    bootstrapIntraNodeBroadcast ranks rank 1 root bcastData envB =
      (ncclResult.ncclSuccess, [], bcastData) :=
  ⟨rfl, rfl, rfl⟩

/-- Enqueueing walks to the end of the list, so it is append of a singleton. -/
theorem unexpectedEnqueue_eq_append (q : List unexConn) (u : unexConn) :
    unexpectedEnqueue q u = q ++ [u] := by
  induction q with
  | nil => rfl
  | cons e rest ih => simp [unexpectedEnqueue, ih]

/-- Dequeue comes back empty-handed exactly when no entry matches. -/
theorem unexpectedDequeue_none_iff (peer tag : Int) (q : List unexConn) :
    unexpectedDequeue q peer tag = none ↔ ∀ x ∈ q, ¬ unexMatch peer tag x := by
  induction q with
  | nil => simp [unexpectedDequeue]
  | cons e rest ih =>
    by_cases hm : e.peer = peer ∧ e.tag = tag
    · constructor
      · intro h
        rw [show unexpectedDequeue (e :: rest) peer tag = some (e, rest) from by
          simp [unexpectedDequeue, hm]] at h
        exact Option.noConfusion h
      · intro hall
        exact absurd hm (hall e (by simp))
    · simp only [unexpectedDequeue, if_neg hm]
      constructor
      · intro h x hx
        rcases List.mem_cons.mp hx with rfl | hx'
        · exact hm
        · have h' : unexpectedDequeue rest peer tag = none := by
            cases hd : unexpectedDequeue rest peer tag with
            | none => rfl
            | some p =>
              obtain ⟨f, q₂⟩ := p
              rw [hd] at h
              exact Option.noConfusion h
          exact (ih.mp h') x hx'
      · intro hall
        have h' : unexpectedDequeue rest peer tag = none :=
          ih.mpr fun x hx => hall x (by simp [hx])
        rw [h']

/-- A successful dequeue splits the queue around the earliest matching entry
and removes exactly that entry, keeping all others in their relative order. -/
theorem unexpectedDequeue_some_spec (peer tag : Int) :
    ∀ (q : List unexConn) (e : unexConn) (q' : List unexConn),
      unexpectedDequeue q peer tag = some (e, q') →
      ∃ l₁ l₂, q = l₁ ++ e :: l₂ ∧ q' = l₁ ++ l₂ ∧ unexMatch peer tag e ∧
        ∀ x ∈ l₁, ¬ unexMatch peer tag x := by
  intro q
  induction q with
  | nil => intro e q' h; simp [unexpectedDequeue] at h
  | cons a rest ih =>
    intro e q' h
    by_cases hm : a.peer = peer ∧ a.tag = tag
    · rw [show unexpectedDequeue (a :: rest) peer tag = some (a, rest) from by
        simp [unexpectedDequeue, hm]] at h
      simp only [Option.some.injEq, Prod.mk.injEq] at h
      obtain ⟨rfl, rfl⟩ := h
      exact ⟨[], rest, rfl, rfl, hm, by simp⟩
    · simp only [unexpectedDequeue, if_neg hm] at h
      cases hd : unexpectedDequeue rest peer tag with
      | none =>
        rw [hd] at h
        exact Option.noConfusion h
      | some p =>
        obtain ⟨f, q₂⟩ := p
        rw [hd] at h
        simp only [Option.some.injEq, Prod.mk.injEq] at h
        obtain ⟨rfl, rfl⟩ := h
        obtain ⟨l₁, l₂, hq, hq', hme, hl₁⟩ := ih f q₂ hd
        refine ⟨a :: l₁, l₂, by simp [hq], by simp [hq'], hme, ?_⟩
        intro x hx
        rcases List.mem_cons.mp hx with rfl | hx'
        · exact hm
        · exact hl₁ x hx'

/-- The accept loop parks every non-matching connection at the queue tail in
arrival order and stops at the first matching one. -/
theorem bootstrapRecvLoop_spec (peer tag : Int) :
    ∀ (pre q : List unexConn) (c : unexConn) (rest : List unexConn),
      (∀ x ∈ pre, ¬ unexMatch peer tag x) → unexMatch peer tag c →
      bootstrapRecvLoop peer tag q (pre ++ c :: rest) = some (c.sock, q ++ pre, rest) := by
  intro pre
  induction pre with
  | nil =>
    intro q c rest _ hc
    have hc' : c.peer = peer ∧ c.tag = tag := hc
    simp [List.nil_append, bootstrapRecvLoop, hc']
  | cons p pre' ih =>
    intro q c rest hpre hc
    have hp : ¬ (p.peer = peer ∧ p.tag = tag) := hpre p (by simp)
    simp only [List.cons_append, bootstrapRecvLoop, if_neg hp, List.append_eq]
    rw [ih (unexpectedEnqueue q p) c rest (fun x hx => hpre x (by simp [hx])) hc]
    rw [unexpectedEnqueue_eq_append]
    simp

/-- C2: a Recv(peer, tag) dequeues exactly the earliest-enqueued matching
entry of unexpectedConnections and leaves the rest in their original
relative order; when nothing was queued, every non-matching connection
accepted during the Recv is appended at the tail of the queue in arrival
order and the first matching one is consumed. -/
theorem unexpected_fifo (peer tag : Int) (q : List unexConn) :
    (∀ e q', unexpectedDequeue q peer tag = some (e, q') →
      ∃ l₁ l₂, q = l₁ ++ e :: l₂ ∧ q' = l₁ ++ l₂ ∧ unexMatch peer tag e ∧
        ∀ x ∈ l₁, ¬ unexMatch peer tag x) ∧
    (unexpectedDequeue q peer tag = none → ∀ x ∈ q, ¬ unexMatch peer tag x) ∧
    (∀ pre c rest, (∀ x ∈ q, ¬ unexMatch peer tag x) →
      (∀ x ∈ pre, ¬ unexMatch peer tag x) → unexMatch peer tag c →
      bootstrapRecv q peer tag (pre ++ c :: rest) = some (c.sock, q ++ pre, rest)) := by
  refine ⟨fun e q' h => unexpectedDequeue_some_spec peer tag q e q' h,
          fun h => (unexpectedDequeue_none_iff peer tag q).mp h,
          fun pre c rest hq hpre hc => ?_⟩
  have hnone : unexpectedDequeue q peer tag = none :=
    (unexpectedDequeue_none_iff peer tag q).mpr hq
  simp only [bootstrapRecv, hnone]
  exact bootstrapRecvLoop_spec peer tag pre q c rest hpre hc

/-- Witness for C2: with one non-matching entry queued, a Recv(5, 1) parks
the non-matching arrival from peer 3 behind it and consumes the matching
arrival from peer 5, leaving the later connection unaccepted. -/
theorem unexpected_fifo_witness :
    bootstrapRecv [⟨2, 2, 40⟩] 5 1 ([⟨3, 3, 50⟩] ++ ⟨5, 1, 60⟩ :: [⟨9, 9, 70⟩]) =
      some (60, [⟨2, 2, 40⟩] ++ [⟨3, 3, 50⟩], [⟨9, 9, 70⟩]) :=
  (unexpected_fifo 5 1 [⟨2, 2, 40⟩]).2.2 [⟨3, 3, 50⟩] ⟨5, 1, 60⟩ [⟨9, 9, 70⟩]
    (by decide) (by decide) (by decide)

/-- The distribute loop unfolded into a range' map, for any start index. -/
theorem rootDistributeFrom_eq (n : Nat) (ra rar : Nat → Nat) :
    ∀ d r, n - r ≤ d →
      rootDistributeFrom n ra rar r =
        (List.range' r (n - r)).map (fun k => ⟨rar k, ra ((k + 1) % n)⟩) := by
  intro d
  induction d with
  | zero =>
    intro r hr
    have hnr : ¬ r < n := by omega
    have h0 : n - r = 0 := by omega
    rw [rootDistributeFrom]
    simp [hnr, h0]
  | succ d ih =>
    intro r hr
    rw [rootDistributeFrom]
    by_cases h : r < n
    · simp only [dif_pos h]
      rw [ih (r + 1) (by omega)]
      have h2 : n - r = (n - (r + 1)) + 1 := by omega
      rw [h2, List.range'_succ]
      simp
    · have h0 : n - r = 0 := by omega
      simp [h, h0]

/-- C4: the distribute phase of the root service produces exactly nranks
sends, the r-th of which (in increasing loop order) connects to the
root-callback address of rank r and carries the comm-address of rank
(r+1) mod nranks. -/
theorem rootDistribute_spec (nranks : Nat) (rankAddresses rankAddressesRoot : Nat → Nat) :
    (rootDistribute nranks rankAddresses rankAddressesRoot).length = nranks ∧
    ∀ r < nranks,
      (rootDistribute nranks rankAddresses rankAddressesRoot)[r]? =
        some ⟨rankAddressesRoot r, rankAddresses ((r + 1) % nranks)⟩ := by
  have he := rootDistributeFrom_eq nranks rankAddresses rankAddressesRoot nranks 0 (by omega)
  rw [rootDistribute, he]
  constructor
  · simp
  · intro r hr
    rw [List.getElem?_map, List.getElem?_range' 0 1 (by omega)]
    simp

/-- Witness for C4: with three ranks and concrete address tables, the send
at loop index 1 goes to the callback address of rank 1 carrying the
comm-address of rank 2. -/
theorem rootDistribute_spec_witness :
    (rootDistribute 3 (fun k => 100 + k) (fun k => 200 + k))[1]? =
      some ⟨201, 102⟩ :=
  (rootDistribute_spec 3 (fun k => 100 + k) (fun k => 200 + k)).2 1 (by decide)

/-- C3: after the first check-in, the root collect loop aborts a check-in
whose reported nranks differs from the captured one, and aborts a check-in
whose rankAddressesRoot slot is already nonzero; in both cases the error
carries the state unchanged, so nothing is stored and nothing overwritten. -/
theorem rootStep_rejects (s : rootState) (info : extInfo) (hc : s.c ≠ 0) :
    (info.nranks ≠ s.nranks → rootStep s info = .error s) ∧
    (s.rankAddressesRoot info.rank ≠ 0 → rootStep s info = .error s) := by
  constructor
  · intro h
    simp only [rootStep, if_neg hc]
    rw [if_pos (Ne.symm h)]
  · intro h
    simp only [rootStep, if_neg hc]
    by_cases hm : s.nranks ≠ info.nranks
    · rw [if_pos hm]
    · rw [if_neg hm, if_pos h]

/-- Witness for C3: a duplicate check-in of rank 2 (its slot already holds a
nonzero address) is rejected with the tables unchanged. -/
theorem rootStep_rejects_witness :
    rootStep ⟨1, 4, fun _ => 0, fun r => if r = 2 then 5 else 0⟩ ⟨2, 4, 7, 8⟩ =
      .error ⟨1, 4, fun _ => 0, fun r => if r = 2 then 5 else 0⟩ :=
  (rootStep_rejects ⟨1, 4, fun _ => 0, fun r => if r = 2 then 5 else 0⟩ ⟨2, 4, 7, 8⟩
      (by decide)).2 (by decide)

/-- The dissemination loop performs two socket operations per iteration. -/
theorem bootstrapBarrierGo_length (ranks : Nat → Int) (rank nranks : Nat) (tag : Int) :
    ∀ d mask (hm : 0 < mask), nranks - mask ≤ d →
      (bootstrapBarrierGo ranks rank nranks tag mask hm).length =
        2 * barrierIters nranks mask hm := by
  intro d
  induction d with
  | zero =>
    intro mask hm hd
    have h : ¬ mask < nranks := by omega
    rw [bootstrapBarrierGo, barrierIters]
    simp [h]
  | succ d ih =>
    intro mask hm hd
    rw [bootstrapBarrierGo, barrierIters]
    by_cases h : mask < nranks
    · simp only [dif_pos h, List.length_cons]
      rw [ih (2 * mask) (by omega) (by omega)]
      ring
    · simp [h]

/-- A number stays below a positive multiple of a power of two. -/
theorem le_mul_two_pow {a b : Nat} (t : Nat) (h : a ≤ b) : a ≤ b * 2 ^ t :=
  le_trans h (Nat.le_mul_of_pos_right b (Nat.two_pow_pos t))

/-- The iteration count from mask is the least t with nranks ≤ mask * 2^t. -/
theorem barrierIters_le_iff (nranks : Nat) :
    ∀ d mask (hm : 0 < mask), nranks - mask ≤ d → ∀ t : Nat,
      (barrierIters nranks mask hm ≤ t ↔ nranks ≤ mask * 2 ^ t) := by
  intro d
  induction d with
  | zero =>
    intro mask hm hd t
    have h : ¬ mask < nranks := by omega
    rw [barrierIters]
    simp only [dif_neg h]
    exact ⟨fun _ => le_mul_two_pow t (by omega), fun _ => Nat.zero_le t⟩
  | succ d ih =>
    intro mask hm hd t
    rw [barrierIters]
    by_cases h : mask < nranks
    · simp only [dif_pos h]
      cases t with
      | zero =>
        simp only [pow_zero, mul_one]
        constructor
        · intro ht; omega
        · intro hle; omega
      | succ t' =>
        rw [Nat.add_le_add_iff_right, ih (2 * mask) (by omega) (by omega) t']
        have he : mask * 2 ^ (t' + 1) = 2 * mask * 2 ^ t' := by ring
        rw [he]
    · simp only [dif_neg h]
      exact ⟨fun _ => le_mul_two_pow t (by omega), fun _ => Nat.zero_le t⟩

/-- Starting from mask 1, the loop runs ceil(log2 nranks) iterations. -/
theorem barrierIters_one (nranks : Nat) :
    barrierIters nranks 1 Nat.one_pos = Nat.clog 2 nranks := by
  apply Nat.le_antisymm
  · rw [barrierIters_le_iff nranks nranks 1 Nat.one_pos (by omega) (Nat.clog 2 nranks),
      one_mul]
    exact Nat.le_pow_clog one_lt_two nranks
  · rw [← Nat.le_pow_iff_clog_le one_lt_two]
    have := (barrierIters_le_iff nranks nranks 1 Nat.one_pos (by omega)
      (barrierIters nranks 1 Nat.one_pos)).mp le_rfl
    simpa using this

/-- The loop trace from mask 2^j is the rounds at masks 2^j, 2^(j+1), ... -/
theorem bootstrapBarrierGo_spec (ranks : Nat → Int) (rank nranks : Nat) (tag : Int) :
    ∀ d j mask (hm : 0 < mask), nranks - mask ≤ d → mask = 2 ^ j →
      bootstrapBarrierGo ranks rank nranks tag mask hm =
        (List.range (barrierIters nranks mask hm)).flatMap
          (fun k => barrierRound ranks rank nranks tag (2 ^ (j + k))) := by
  intro d
  induction d with
  | zero =>
    intro j mask hm hd hj
    have h : ¬ mask < nranks := by omega
    rw [bootstrapBarrierGo, barrierIters]
    simp [h]
  | succ d ih =>
    intro j mask hm hd hj
    rw [bootstrapBarrierGo, barrierIters]
    by_cases h : mask < nranks
    · simp only [dif_pos h]
      rw [ih (j + 1) (2 * mask) (by omega) (by omega) (by rw [hj]; ring)]
      rw [List.range_succ_eq_map, List.flatMap_cons, List.flatMap_map]
      have harg : (fun k => barrierRound ranks rank nranks tag (2 ^ ((j + 1) + k))) =
          (fun k => barrierRound ranks rank nranks tag (2 ^ (j + Nat.succ k))) := by
        funext k
        have : (j + 1) + k = j + Nat.succ k := by omega
        rw [this]
      rw [harg]
      simp [barrierRound, hj]
    · simp [h]

/-- C6: for nranks at least 1 and any rank and tag, the barrier trace is
exactly the dissemination rounds for mask = 2^k, k = 0 .. ceil(log2 nranks)
minus 1, in order: each round sends to ranks[(rank + mask) mod nranks] and
then receives from ranks[(rank - mask + nranks) mod nranks] with the given
tag; the trace holds 2 * ceil(log2 nranks) operations and touches no ring
socket. -/
theorem bootstrapBarrier_rounds (ranks : Nat → Int) (rank nranks : Nat) (tag : Int)
    (hn : 1 ≤ nranks) (hrank : rank < nranks) :
    (bootstrapBarrier ranks rank nranks tag).1 = ncclResult.ncclSuccess ∧
    (bootstrapBarrier ranks rank nranks tag).2 =
      (List.range (Nat.clog 2 nranks)).flatMap
        (fun k => barrierRound ranks rank nranks tag (2 ^ k)) ∧
    (bootstrapBarrier ranks rank nranks tag).2.length = 2 * Nat.clog 2 nranks ∧
    ∀ e ∈ (bootstrapBarrier ranks rank nranks tag).2,
      e ≠ bEvent.ringSend ∧ e ≠ bEvent.ringRecv := by
  by_cases h1 : nranks = 1
  · subst h1
    have hc : Nat.clog 2 1 = 0 := Nat.clog_of_right_le_one le_rfl 2
    refine ⟨rfl, ?_, ?_, ?_⟩
    · simp [bootstrapBarrier, hc]
    · simp [bootstrapBarrier, hc]
    · intro e he
      simp [bootstrapBarrier] at he
  · have htr : (bootstrapBarrier ranks rank nranks tag).2 =
        (List.range (Nat.clog 2 nranks)).flatMap
          (fun k => barrierRound ranks rank nranks tag (2 ^ k)) := by
      have hgo := bootstrapBarrierGo_spec ranks rank nranks tag nranks 0 1 Nat.one_pos
        (by omega) (by norm_num)
      rw [bootstrapBarrier, if_neg h1]
      simp only [hgo, barrierIters_one]
      simp
    have hlen : (bootstrapBarrier ranks rank nranks tag).2.length =
        2 * Nat.clog 2 nranks := by
      have hl := bootstrapBarrierGo_length ranks rank nranks tag nranks 1 Nat.one_pos
        (by omega)
      rw [bootstrapBarrier, if_neg h1]
      simp only [hl, barrierIters_one]
    refine ⟨by rw [bootstrapBarrier, if_neg h1], htr, hlen, ?_⟩
    intro e he
    rw [htr] at he
    rcases List.mem_flatMap.mp he with ⟨k, _, hek⟩
    simp only [barrierRound, List.mem_cons, List.mem_singleton] at hek
    rcases hek with rfl | hek
    · exact ⟨by simp, by simp⟩
    · rcases hek with rfl | hek
      · exact ⟨by simp, by simp⟩
      · simp at hek

/-- Witness for C6: with eight ranks the barrier of rank 3 performs exactly
the three dissemination rounds at masks 1, 2 and 4. -/
theorem bootstrapBarrier_rounds_witness :
    (bootstrapBarrier (fun i => (i : Int)) 3 8 177).1 = ncclResult.ncclSuccess ∧
    (bootstrapBarrier (fun i => (i : Int)) 3 8 177).2 =
      (List.range (Nat.clog 2 8)).flatMap
        (fun k => barrierRound (fun i => (i : Int)) 3 8 177 (2 ^ k)) ∧
    (bootstrapBarrier (fun i => (i : Int)) 3 8 177).2.length = 2 * Nat.clog 2 8 ∧
    ∀ e ∈ (bootstrapBarrier (fun i => (i : Int)) 3 8 177).2,
      e ≠ bEvent.ringSend ∧ e ≠ bEvent.ringRecv :=
  bootstrapBarrier_rounds (fun i => (i : Int)) 3 8 177 (by decide) (by decide)

/-- C10: bootstrapAbort on a NULL state returns Success, closes no socket and
frees nothing. -/
theorem bootstrapAbort_null :
    bootstrapAbort none = (ncclResult.ncclSuccess, [], []) := rfl

/-- The n values (r + n - j) mod n for j below n are pairwise distinct. -/
theorem slice_index_inj (n r : Nat) : ∀ {j j' : Nat}, j < n → j' < n →
    (r + n - j) % n = (r + n - j') % n → j = j' := by
  have key : ∀ j j' : Nat, j ≤ j' → j < n → j' < n →
      (r + n - j) % n = (r + n - j') % n → j = j' := by
    intro j j' hle hj hj' h
    have hd : n ∣ (r + n - j) - (r + n - j') := (Nat.modEq_iff_dvd' (by omega)).mp h.symm
    have h2 : (r + n - j) - (r + n - j') = j' - j := by omega
    rw [h2] at hd
    have h3 := Nat.eq_zero_of_dvd_of_lt hd (show j' - j < n by omega)
    omega
  intro j j' hj hj' h
  rcases Nat.le_total j j' with hle | hle
  · exact key j j' hle hj hj' h
  · exact (key j' j hle hj' hj h.symm).symm

/-- What the ring predecessor sends at step k is exactly the slice the rank
receives at step k: the two loop index computations agree across the ring. -/
theorem sslice_prevRank (n r k : Nat) (_hn : 0 < n) (hk : k < n) :
    sslice n (prevRank n r) k = rslice n r k := by
  unfold sslice rslice prevRank
  have h1 : (r + n - 1) % n + n - k = (r + n - 1) % n + (n - k) := by omega
  rw [h1, Nat.mod_add_mod]
  have h2 : r + n - 1 + (n - k) = (r + n - (k + 1)) + n := by omega
  rw [h2, Nat.add_mod_right]

/-- No receive slice of the AllGather loop is the own slice of the rank. -/
theorem rslice_ne_rank (n rank i : Nat) (hn : 0 < n) (hrank : rank < n)
    (hi : i < n - 1) : rslice n rank i ≠ rank := by
  unfold rslice
  intro h
  have h0 : (rank + n - 0) % n = rank := by
    rw [Nat.sub_zero, Nat.add_mod_right, Nat.mod_eq_of_lt hrank]
  have := slice_index_inj n rank (show i + 1 < n by omega) (show 0 < n from hn)
    (by rw [h0]; exact h)
  omega

/-- Invariant of the ring AllGather: after k rounds every rank r holds the
correct contribution in the k+1 slices r, r-1, ..., r-k (mod n). -/
theorem allGather_invariant (n : Nat) (hn : 0 < n) (f : Nat → α)
    (data : Nat → Nat → α) (hinit : ∀ r < n, data r r = f r) :
    ∀ k, k ≤ n - 1 → ∀ r < n, ∀ j ≤ k,
      allGatherRun n data k r ((r + n - j) % n) = f ((r + n - j) % n) := by
  intro k
  induction k with
  | zero =>
    intro _ r hr j hj
    have hj0 : j = 0 := by omega
    subst hj0
    have hrn : (r + n - 0) % n = r := by
      rw [Nat.sub_zero, Nat.add_mod_right, Nat.mod_eq_of_lt hr]
    rw [hrn]
    exact hinit r hr
  | succ k ih =>
    intro hk r hr j hj
    have hk' : k ≤ n - 1 := by omega
    show allGatherStep n k (allGatherRun n data k) r ((r + n - j) % n) = _
    simp only [allGatherStep]
    by_cases hcase : (r + n - j) % n = rslice n r k
    · rw [if_pos hcase]
      have hprev : prevRank n r < n := Nat.mod_lt _ hn
      have hsp : sslice n (prevRank n r) k = rslice n r k :=
        sslice_prevRank n r k hn (by omega)
      have hih := ih hk' (prevRank n r) hprev k le_rfl
      have hs_eq : sslice n (prevRank n r) k = (prevRank n r + n - k) % n := rfl
      rw [hs_eq, hih]
      have harg : (prevRank n r + n - k) % n = (r + n - j) % n := by
        rw [← hs_eq, hsp, ← hcase]
      rw [harg]
    · rw [if_neg hcase]
      have hj' : j ≤ k := by
        by_contra hgt
        have hj1 : j = k + 1 := by omega
        subst hj1
        exact hcase rfl
      exact ih hk' r hr j hj'

/-- C1: on a ring of nranks ranks where every rank r starts with its own
contribution in slice r of its buffer, after the nranks-1 rounds of
bootstrapAllGather every rank holds rank i's contribution in slice i, for
every i; the ring wiring (each rank receives from its predecessor what the
predecessor sent that round) is the step relation of the model. -/
theorem bootstrapAllGather_correct (nranks : Nat) (f : Nat → α)
    (data : Nat → Nat → α) (hn : 1 ≤ nranks) (hinit : ∀ r < nranks, data r r = f r)
    (r : Nat) (hr : r < nranks) (i : Nat) (hi : i < nranks) :
    bootstrapAllGather nranks data r i = f i := by
  have hn0 : 0 < nranks := hn
  set j := (r + nranks - i) % nranks with hjdef
  have hjlt : j < nranks := Nat.mod_lt _ hn0
  have hslice : (r + nranks - j) % nranks = i := by
    by_cases hcase : r + nranks - i < nranks
    · have hj : j = r + nranks - i := by rw [hjdef]; exact Nat.mod_eq_of_lt hcase
      rw [hj]
      have h2 : r + nranks - (r + nranks - i) = i := by omega
      rw [h2, Nat.mod_eq_of_lt hi]
    · have hge : nranks ≤ r + nranks - i := by omega
      have hj : j = r - i := by
        rw [hjdef, Nat.mod_eq_sub_mod hge]
        have h3 : r + nranks - i - nranks = r - i := by omega
        rw [h3, Nat.mod_eq_of_lt (by omega)]
      rw [hj]
      have h4 : r + nranks - (r - i) = nranks + i := by omega
      rw [h4, Nat.add_mod_left, Nat.mod_eq_of_lt hi]
  have hinv := allGather_invariant nranks hn0 f data hinit (nranks - 1) le_rfl r hr
    j (by omega)
  rw [hslice] at hinv
  exact hinv

/-- Witness for C1: on three ranks with contribution s in slice s and 99 in
every foreign slice, rank 2 ends with contribution 1 in slice 1. -/
theorem bootstrapAllGather_correct_witness :
    bootstrapAllGather 3 (fun r s => if r = s then s else 99) 2 1 = 1 :=
  bootstrapAllGather_correct 3 (fun x => x) (fun r s => if r = s then s else 99)
    (by decide) (by decide) 2 (by decide) 1 (by decide)

/-- C7: no receive slice of bootstrapAllGather equals the own rank, so the
own slice is never overwritten: after any number of rounds, and after the
full AllGather, slice rank of rank rank still holds the locally written
value; instantiated with the address tables this says peerCommAddresses of
rank (and likewise peerProxyAddresses) still equals the local listen
address after Init. -/
theorem bootstrapAllGather_ownSlice (nranks rank : Nat) (hn : 1 ≤ nranks)
    (hrank : rank < nranks) :
    (∀ i < nranks - 1, rslice nranks rank i ≠ rank) ∧
    (∀ (data : Nat → Nat → α) k, k ≤ nranks - 1 →
      allGatherRun nranks data k rank rank = data rank rank) ∧
    (∀ data : Nat → Nat → α, bootstrapAllGather nranks data rank rank = data rank rank) := by
  have hpart1 : ∀ i < nranks - 1, rslice nranks rank i ≠ rank :=
    fun i hi => rslice_ne_rank nranks rank i (by omega) hrank hi
  have hpart2 : ∀ (data : Nat → Nat → α) k, k ≤ nranks - 1 →
      allGatherRun nranks data k rank rank = data rank rank := by
    intro data k
    induction k with
    | zero => intro _; rfl
    | succ k ih =>
      intro hk
      show allGatherStep nranks k (allGatherRun nranks data k) rank rank = _
      simp only [allGatherStep]
      rw [if_neg (Ne.symm (hpart1 k (by omega)))]
      exact ih (by omega)
  exact ⟨hpart1, hpart2, fun data => hpart2 data (nranks - 1) le_rfl⟩

/-- Witness for C7: with three ranks, the first receive slice of rank 1 is
not 1, and the full AllGather leaves the own entry of rank 1 unchanged. -/
theorem bootstrapAllGather_ownSlice_witness :
    rslice 3 1 0 ≠ 1 ∧
    bootstrapAllGather 3 (fun r s => 10 * r + s) 1 1 = 10 * 1 + 1 :=
  ⟨(@bootstrapAllGather_ownSlice Nat 3 1 (by decide) (by decide)).1 0 (by decide),
   (@bootstrapAllGather_ownSlice Nat 3 1 (by decide) (by decide)).2.2 (fun r s => 10 * r + s)⟩

end NcclBootstrap
